import Mathlib

/-!
Shallow embedding of the easyversion delta-storage engine.

The repository stores versions of files as chains of binary deltas.  The
embedding below models, over byte buffers (`List Nat`):

* the supplied delta/compression primitives as an abstract `Primitives`
  structure (the spec treats `diff`/`apply` and `compress`/`decompress`
  as external mutual inverses, and the 64-bit content hash as a supplied
  content-addressing primitive);
* the content-addressed blob store of a `PatchTimeline` as an association
  list from hash to patch bytes (the patch directory on disk);
* `PatchTimeline::push/pop/get` from `src/patches/patch_timeline.rs`;
* `TrackedFile::{apply, commit, load_version, delete_version,
  version_count}` from `src/tracked/file.rs`;
* `TrackedFolder`/`TrackedItem` commit/load/delete fan-out from
  `src/tracked/folder.rs`;
* `Timeline::trunicate` from `src/timeline.rs` (repeated pop);
* the derived `fork` operation (copy, clear, commit).
-/

namespace EasyVersion

/-- Byte buffers are lists of naturals. -/
abbrev Bytes := List Nat

/-- The supplied external primitives: binary delta (bsdiff), compression
(bzip2) and the 64-bit content hash (DefaultHasher).  The core treats them
as opaque, per the spec's non-goals section. -/
structure Primitives where
  diff : Bytes → Bytes → Bytes
  applyDelta : Bytes → Bytes → Option Bytes
  compress : Bytes → Bytes
  decompress : Bytes → Option Bytes
  hashFn : Bytes → Nat

/-- The spec's stated axioms: `diff`/`apply` are mutual inverses for all
byte buffers, and so are `compress`/`decompress`. -/
def Primitives.Inverses (P : Primitives) : Prop :=
  (∀ s t, P.applyDelta s (P.diff s t) = some t) ∧
  (∀ d, P.decompress (P.compress d) = some d)

/-- Error taxonomy, flattened across `PatchTimelineError`, `VersionError`
and `TrackedFileError`. -/
inductive VErr where
  | ioError
  | patchError
  | indexOutOfRange (i : Nat)
  | noVersionsAvailable
  deriving DecidableEq

/-- Modelled from the spec (§4.1): `Patch::new` of the missing
`src/patches/patch.rs` runs `diff(source, target)` then `compress`; the
patch's stored bytes are the compressed delta. -/
def Patch.new (P : Primitives) (source target : Bytes) : Bytes :=
  P.compress (P.diff source target)

/-- Modelled from the spec (§4.1): `Patch::apply` of the missing
`src/patches/patch.rs` runs `decompress` then `apply(source, delta)`;
either primitive may fail on corrupt input. -/
def Patch.applyP (P : Primitives) (data source : Bytes) : Except VErr Bytes :=
  match P.decompress data with
  | none => .error .patchError
  | some delta =>
    match P.applyDelta source delta with
    | none => .error .patchError
    | some t => .ok t

/-- `Patch::from_buffers` of `src/patch.rs` (older snapshot): the patch
data is the raw (uncompressed) delta. -/
def Patch.fromBuffers (P : Primitives) (source target : Bytes) : Bytes :=
  P.diff source target

/-- `Patch::apply` of `src/patch.rs` (older snapshot): apply the raw
delta to the source buffer. -/
def Patch.applyRaw (P : Primitives) (data source : Bytes) : Except VErr Bytes :=
  match P.applyDelta source data with
  | none => .error .patchError
  | some t => .ok t

/-- The patch directory on disk: one blob file per stored hash, holding
the patch's bytes.  Modelled as an association list. -/
abbrev Store := List (Nat × Bytes)

/-- Does a blob file for hash `h` exist, and what does it hold?
(`path.exists` / reading the blob file.) -/
def lookupBlob : Store → Nat → Option Bytes
  | [], _ => none
  | (k, d) :: rest, h => if k = h then some d else lookupBlob rest h

/-- `fs::remove_file` on the blob named by `h`. -/
def eraseBlob : Store → Nat → Store
  | [], _ => []
  | (k, d) :: rest, h =>
    if k = h then eraseBlob rest h else (k, d) :: eraseBlob rest h

/-- The hashes naming the blob files currently present in the directory. -/
def storeKeys (s : Store) : List Nat :=
  s.map Prod.fst

/-- `PatchTimeline::push` (src/patches/patch_timeline.rs:87-96): write the
blob only if no file of that hash exists, then append the hash to the
chain unconditionally. -/
def pushTL (P : Primitives) (s : Store) (c : List Nat) (d : Bytes) :
    Store × List Nat :=
  let h := P.hashFn d
  (if (lookupBlob s h).isNone then (h, d) :: s else s, c ++ [h])

/-- `PatchTimeline::pop` (src/patches/patch_timeline.rs:98-109): remove
the last hash; if it no longer occurs in the remaining chain, delete its
blob file (an error if the blob is already gone).  The first component is
the returned error, if any; the rest is the resulting state (the hash is
removed from the chain even when blob deletion fails). -/
def popTL (s : Store) (c : List Nat) : Option VErr × Store × List Nat :=
  match c.getLast? with
  | none => (some .noVersionsAvailable, s, c)
  | some h =>
    let rest := c.dropLast
    if h ∈ rest then (none, s, rest)
    else
      match lookupBlob s h with
      | some _ => (none, eraseBlob s h, rest)
      | none => (some .ioError, s, rest)

/-- `PatchTimeline::get` (src/patches/patch_timeline.rs:111-119): resolve
`chain[idx]` and read its blob. -/
def getTL (s : Store) (c : List Nat) (i : Nat) : Except VErr Bytes :=
  match c.get? i with
  | none => .error (.indexOutOfRange i)
  | some h =>
    match lookupBlob s h with
    | some d => .ok d
    | none => .error .ioError

/-- Iterated `pop`, stopping at the first error (the loop body of
`TrackedFile::delete_version` and of `Timeline::trunicate` uses `pop()?`,
so earlier pops keep their effect). -/
def popN : Nat → Store → List Nat → Option VErr × Store × List Nat
  | 0, s, c => (none, s, c)
  | k + 1, s, c =>
    match popTL s c with
    | (some e, s2, c2) => (some e, s2, c2)
    | (none, s2, c2) => popN k s2 c2

/-- One iteration of the reconstruction loop: `get(i)` then apply the
patch to the accumulated buffer. -/
def replayStep (P : Primitives) (s : Store) (c : List Nat) (i : Nat)
    (src : Bytes) : Except VErr Bytes :=
  match getTL s c i with
  | .error e => .error e
  | .ok d => Patch.applyP P d src

/-- The reconstruction loop of `TrackedFile::apply`
(src/tracked/file.rs:87-93): process `r` successive patches starting at
index `i`, threading the accumulated buffer; the `?` operator on each
step is `Except.bind`. -/
def replayN (P : Primitives) (s : Store) (c : List Nat) :
    Nat → Nat → Bytes → Except VErr Bytes
  | _, 0, src => .ok src
  | i, r + 1, src =>
    (replayStep P s c i src).bind (fun t => replayN P s c (i + 1) r t)

/-- A tracked file: its patch chain and the bytes of the live file at its
path (`fs::read`/`fs::write` of `self.path`). -/
structure TF where
  chain : List Nat
  content : Bytes
  deriving DecidableEq

/-- A freshly constructed `TrackedFile` (src/tracked/file.rs:57-71): the
timeline starts empty; `c` is whatever the live file holds. -/
def freshTF (c : Bytes) : TF :=
  { chain := [], content := c }

/-- `version_count()` of a tracked file: `timeline.len()`. -/
def TF.versionCount (tf : TF) : Nat :=
  tf.chain.length

/-- Modelled from the spec (§4.5, and `VersionInfoManager`'s
`latest_version_index`): `Some(len - 1)`, or `None` when empty; the
`Version` trait of the newer snapshot is not under src/. -/
def TF.latestVersionIndex (tf : TF) : Option Nat :=
  match tf.chain.length with
  | 0 => none
  | Nat.succ n => some n

/-- `TrackedFile::apply` (src/tracked/file.rs:81-95): error out when the
timeline is empty, else replay patches `0..=index` from the empty buffer
(`get` fails with `IndexOutOfRange` when the loop passes the chain). -/
def applyChain (P : Primitives) (s : Store) (c : List Nat) (index : Nat) :
    Except VErr Bytes :=
  if c.isEmpty then .error .noVersionsAvailable
  else replayN P s c 0 (index + 1) []

/-- `TrackedFile::apply` on a tracked file state. -/
def fileApply (P : Primitives) (s : Store) (tf : TF) (index : Nat) :
    Except VErr Bytes :=
  applyChain P s tf.chain index

/-- `TrackedFile::commit` (src/tracked/file.rs:99-108): reconstruct the
latest version (empty when there is none), read the live file, build a
patch from the two and push it. -/
def fileCommit (P : Primitives) (s : Store) (tf : TF) :
    Option VErr × Store × TF :=
  match
    (match tf.latestVersionIndex with
     | some i => fileApply P s tf i
     | none => .ok []) with
  | .error e => (some e, s, tf)
  | .ok source =>
    let target := tf.content
    let d := Patch.new P source target
    let sc := pushTL P s tf.chain d
    (none, sc.1, { tf with chain := sc.2 })

/-- `TrackedFile::load_version` (src/tracked/file.rs:110-114):
reconstruct version `index` and write it to the live file. -/
def fileLoadVersion (P : Primitives) (s : Store) (tf : TF) (index : Nat) :
    Option VErr × Store × TF :=
  match fileApply P s tf index with
  | .error e => (some e, s, tf)
  | .ok v => (none, s, { tf with content := v })

/-- `TrackedFile::delete_version` (src/tracked/file.rs:116-128): pop once
for each position in `index..=latest`; fail with `NoVersionsAvailable`
when the timeline is empty.  The live file is not touched. -/
def fileDeleteVersion (s : Store) (tf : TF) (index : Nat) :
    Option VErr × Store × TF :=
  match tf.latestVersionIndex with
  | none => (some .noVersionsAvailable, s, tf)
  | some latest =>
    let r := popN (latest + 1 - index) s tf.chain
    (r.1, r.2.1, { tf with chain := r.2.2 })

/-- Commit a sequence of successive live-file contents: each step writes
the content externally to the tracked path, then calls `commit()`;
stops at the first commit error. -/
def commitSeq (P : Primitives) :
    Store → TF → List Bytes → Option VErr × Store × TF
  | s, tf, [] => (none, s, tf)
  | s, tf, c :: rest =>
    match fileCommit P s { tf with content := c } with
    | (none, s2, tf2) => commitSeq P s2 tf2 rest
    | (some e, s2, tf2) => (some e, s2, tf2)

/-- A tracked item: a file leaf (owning its per-file patch directory,
keyed by a hash of the file's path, so distinct files never share blobs)
or a folder with its ordered children and its stored version counter
(src/tracked/folder.rs:43-47). -/
inductive Item where
  | file (s : Store) (tf : TF)
  | folder (children : List Item) (count : Nat)

/-- `version_count()` (src/tracked/folder.rs:104-106): a folder returns
its own stored counter field; a file returns its timeline length. -/
def Item.versionCount : Item → Nat
  | .file _ tf => tf.chain.length
  | .folder _ n => n

/-- The `version_count()` of each direct child of a folder (empty for a
file leaf). -/
def Item.childCounts : Item → List Nat
  | .file _ _ => []
  | .folder cs _ => cs.map Item.versionCount

/-- A `TrackedFolder` as built by `TrackedFolder::new`
(src/tracked/folder.rs:49-73): the given children and a zero counter. -/
def mkFolder (cs : List Item) : Item :=
  .folder cs 0

mutual

/-- `commit` dispatched over the `TrackedItem` tag (modelled from the
spec, §4.4/§4.5: the newer snapshot's `Version for TrackedItem` impl is
not under src/); the folder case is `TrackedFolder::commit`
(src/tracked/folder.rs:81-87): commit every child in order, abort at the
first error, and increment the stored counter only on success. -/
def itemCommit (P : Primitives) : Item → Option VErr × Item
  | .file s tf =>
    match fileCommit P s tf with
    | (e, s2, tf2) => (e, .file s2 tf2)
  | .folder cs n =>
    match itemsCommit P cs with
    | (none, cs2) => (none, .folder cs2 (n + 1))
    | (some e, cs2) => (some e, .folder cs2 n)

/-- The child loop of `TrackedFolder::commit`: the first child error
aborts the loop; earlier children keep their new state, later children
are untouched. -/
def itemsCommit (P : Primitives) : List Item → Option VErr × List Item
  | [] => (none, [])
  | x :: xs =>
    match itemCommit P x with
    | (none, x2) =>
      match itemsCommit P xs with
      | (e, xs2) => (e, x2 :: xs2)
    | (some e, x2) => (some e, x2 :: xs)

end

mutual

/-- `load_version` dispatched over the `TrackedItem` tag; the folder case
is `TrackedFolder::load_version` (src/tracked/folder.rs:89-94): load every
child in order, abort at the first error; the counter is untouched. -/
def itemLoadVersion (P : Primitives) (index : Nat) :
    Item → Option VErr × Item
  | .file s tf =>
    match fileLoadVersion P s tf index with
    | (e, s2, tf2) => (e, .file s2 tf2)
  | .folder cs n =>
    match itemsLoadVersion P index cs with
    | (e, cs2) => (e, .folder cs2 n)

/-- The child loop of `TrackedFolder::load_version`. -/
def itemsLoadVersion (P : Primitives) (index : Nat) :
    List Item → Option VErr × List Item
  | [] => (none, [])
  | x :: xs =>
    match itemLoadVersion P index x with
    | (none, x2) =>
      match itemsLoadVersion P index xs with
      | (e, xs2) => (e, x2 :: xs2)
    | (some e, x2) => (some e, x2 :: xs)

end

mutual

/-- `delete_version` dispatched over the `TrackedItem` tag; the folder
case is `TrackedFolder::delete_version` (src/tracked/folder.rs:96-102):
delete on every child in order, abort at the first error, and on success
set the stored counter to `index`. -/
def itemDeleteVersion (index : Nat) : Item → Option VErr × Item
  | .file s tf =>
    match fileDeleteVersion s tf index with
    | (e, s2, tf2) => (e, .file s2 tf2)
  | .folder cs n =>
    match itemsDeleteVersion index cs with
    | (none, cs2) => (none, .folder cs2 index)
    | (some e, cs2) => (some e, .folder cs2 n)

/-- The child loop of `TrackedFolder::delete_version`. -/
def itemsDeleteVersion (index : Nat) : List Item → Option VErr × List Item
  | [] => (none, [])
  | x :: xs =>
    match itemDeleteVersion index x with
    | (none, x2) =>
      match itemsDeleteVersion index xs with
      | (e, xs2) => (e, x2 :: xs2)
    | (some e, x2) => (some e, x2 :: xs)

end

/-- Timeline operations for arbitrary call sequences (`push`, `pop`, and
`truncate` as in `Timeline::trunicate`, src/timeline.rs:84-92: reject an
out-of-range index up front, else pop down to the index). -/
inductive TLOp where
  | push (d : Bytes)
  | pop
  | trunc (i : Nat)

/-- Apply one timeline operation to the (store, chain) state; when an
operation reports an error its partial effect on the state is kept,
matching the Rust methods' in-place mutation. -/
def runOp (P : Primitives) (sc : Store × List Nat) : TLOp → Store × List Nat
  | .push d => pushTL P sc.1 sc.2 d
  | .pop => (popTL sc.1 sc.2).2
  | .trunc i =>
    if i > sc.2.length then sc
    else (popN (sc.2.length - i) sc.1 sc.2).2

/-- Run a sequence of timeline operations from a given state. -/
def runOps (P : Primitives) : List TLOp → Store × List Nat → Store × List Nat
  | [], sc => sc
  | op :: ops, sc => runOps P ops (runOp P sc op)

/-- Modelled from the spec (§4.5): `fork()` of a tracked file deep-copies
the item, clears the copy's history (`delete_version(0)`), then commits
the copy; the copy shares the original's patch directory and live file.
Returns the error (if any), the resulting shared store, and the fork's
chain; the original's chain value is untouched by construction. -/
def forkOf (P : Primitives) (s : Store) (content : Bytes)
    (aChain : List Nat) : Option VErr × Store × List Nat :=
  let tfCopy : TF := { chain := aChain, content := content }
  match fileDeleteVersion s tfCopy 0 with
  | (some e, s2, tf2) => (some e, s2, tf2.chain)
  | (none, s2, tf2) =>
    match fileCommit P s2 tf2 with
    | (e, s3, tf3) => (e, s3, tf3.chain)

/-- Blob invariant of a timeline (spec §3): a blob file for hash `h`
exists on disk iff `h` currently appears at least once in the chain. -/
def ChainWF (s : Store) (c : List Nat) : Prop :=
  ∀ h, (lookupBlob s h).isSome ↔ h ∈ c

/-- One blob file per distinct hash: the directory never holds two files
for the same hash. -/
def KeysNodup (s : Store) : Prop :=
  (storeKeys s).Nodup

instance (s : Store) : Decidable (KeysNodup s) :=
  List.nodupDecidable (storeKeys s)

deriving instance DecidableEq for Except

/-- Every blob is stored under its own content hash. -/
def StoreOK (P : Primitives) (s : Store) : Prop :=
  ∀ h d, lookupBlob s h = some d → P.hashFn d = h

/-- Invariant of a tracked file built by successive commits of the
contents `cs`: chain length matches, the store is content-addressed and
deduplicated, and reconstructing version `i` yields `cs[i]`. -/
def Good (P : Primitives) (s : Store) (tf : TF) (cs : List Bytes) : Prop :=
  tf.chain.length = cs.length ∧ StoreOK P s ∧ KeysNodup s ∧
  ChainWF s tf.chain ∧
  ∀ i (hi : i < cs.length), fileApply P s tf i = .ok (cs.get ⟨i, hi⟩)

/-- An injective concrete content hash for witnesses (a stand-in for the
64-bit DefaultHasher, collision-free on the inputs at hand). -/
def hashEnc : Bytes → Nat
  | [] => 0
  | a :: l => Nat.pair a (hashEnc l) + 1

/-- Concrete primitives for witnesses: the delta from `s` to `t` is `t`
itself, applying a delta returns it, compression is the identity.  These
satisfy the spec's mutual-inverse axioms. -/
def idPrims : Primitives :=
  { diff := fun _ t => t
    applyDelta := fun _ d => some d
    compress := id
    decompress := some
    hashFn := hashEnc }

/-- The spec's chain-reconstruction scenario: successive live-file
contents `"a"`, `"ab"`, `"abc"`. -/
def csABC : List Bytes :=
  [[97], [97, 98], [97, 98, 99]]

/-- A tracked file whose chain references hash 9 but whose patch
directory no longer holds the blob (e.g. after external deletion): every
operation that reads the chain fails with an I/O error. -/
def brokenFile : Item :=
  Item.file [] { chain := [9], content := [] }

/-- A file leaf with one committed version whose blob is present. -/
def oneVersionFile : Item :=
  Item.file [(9, [5])] { chain := [9], content := [] }

/-- A folder holding a one-version file and a one-version sub-folder:
the smallest shape on which an out-of-range `delete_version` succeeds yet
leaves the children with unequal version counts. -/
def mixedFolder : Item :=
  Item.folder [oneVersionFile, Item.folder [oneVersionFile] 1] 1

/-- A freshly constructed folder tracking two files A and B. -/
def twoFilesFolder : Item :=
  mkFolder [Item.file [] (freshTF []), Item.file [] (freshTF [])]

/-- Three successive `commit()` calls on an item, keeping the final
state (each call's success is asserted separately where used). -/
def commit3 (P : Primitives) (x : Item) : Item :=
  (itemCommit P (itemCommit P (itemCommit P x).2).2).2

/-! ### Store lemmas -/

theorem lookupBlob_eq_none_iff (s : Store) (h : Nat) :
    lookupBlob s h = none ↔ h ∉ storeKeys s := by
  induction s with
  | nil => simp [lookupBlob, storeKeys]
  | cons kd rest ih =>
    obtain ⟨k, d⟩ := kd
    by_cases hk : k = h
    · subst hk; simp [lookupBlob, storeKeys]
    · simp [lookupBlob, storeKeys, hk, ih, Ne.symm hk]

theorem lookupBlob_isSome_iff (s : Store) (h : Nat) :
    (lookupBlob s h).isSome ↔ h ∈ storeKeys s := by
  induction s with
  | nil => simp [lookupBlob, storeKeys]
  | cons kd rest ih =>
    obtain ⟨k, d⟩ := kd
    by_cases hk : k = h
    · subst hk; simp [lookupBlob, storeKeys]
    · simp [lookupBlob, storeKeys, hk, ih, Ne.symm hk]

theorem lookupBlob_erase_self (s : Store) (h : Nat) :
    lookupBlob (eraseBlob s h) h = none := by
  induction s with
  | nil => rfl
  | cons kd rest ih =>
    obtain ⟨k, d⟩ := kd
    by_cases hk : k = h
    · simpa [eraseBlob, hk] using ih
    · simp [eraseBlob, hk, lookupBlob, ih]

theorem lookupBlob_erase_ne (s : Store) (h h2 : Nat) (hne : h2 ≠ h) :
    lookupBlob (eraseBlob s h) h2 = lookupBlob s h2 := by
  induction s with
  | nil => rfl
  | cons kd rest ih =>
    obtain ⟨k, d⟩ := kd
    by_cases hk : k = h
    · subst hk
      simp [eraseBlob, lookupBlob, Ne.symm hne, ih]
    · simp [eraseBlob, hk, lookupBlob, ih]

theorem eraseBlob_sublist (s : Store) (h : Nat) :
    (eraseBlob s h).Sublist s := by
  induction s with
  | nil => simp [eraseBlob]
  | cons kd rest ih =>
    obtain ⟨k, d⟩ := kd
    by_cases hk : k = h
    · simp only [eraseBlob, hk, if_pos]
      exact ih.cons _
    · simp only [eraseBlob, hk, if_neg, not_false_iff]
      exact ih.cons₂ _

theorem keysNodup_erase {s : Store} (h : Nat) (hs : KeysNodup s) :
    KeysNodup (eraseBlob s h) := by
  exact hs.sublist ((eraseBlob_sublist s h).map Prod.fst)

theorem storeOK_erase {P : Primitives} {s : Store} (h : Nat)
    (hs : StoreOK P s) : StoreOK P (eraseBlob s h) := by
  intro h2 d hd
  by_cases hne : h2 = h
  · subst hne; rw [lookupBlob_erase_self] at hd; cases hd
  · rw [lookupBlob_erase_ne s h h2 hne] at hd; exact hs h2 d hd

/-! ### Push lemmas -/

theorem lookupBlob_push_mono (P : Primitives) (s : Store) (c : List Nat)
    (d0 : Bytes) {h : Nat} {d : Bytes} (hd : lookupBlob s h = some d) :
    lookupBlob (pushTL P s c d0).1 h = some d := by
  unfold pushTL
  by_cases hl : lookupBlob s (P.hashFn d0) = none
  · have hne : P.hashFn d0 ≠ h := by
      intro he; rw [he, hd] at hl; cases hl
    simp [hl, lookupBlob, hne, hd]
  · simp [hl, hd]

theorem lookupBlob_push_self {P : Primitives} (s : Store) (c : List Nat)
    (d0 : Bytes) (hok : StoreOK P s) (hinj : Function.Injective P.hashFn) :
    lookupBlob (pushTL P s c d0).1 (P.hashFn d0) = some d0 := by
  unfold pushTL
  by_cases hl : lookupBlob s (P.hashFn d0) = none
  · simp [hl, lookupBlob]
  · obtain ⟨d, hd⟩ := Option.ne_none_iff_exists'.mp hl
    have hdd : d = d0 := hinj (hok _ _ hd)
    simp [hl, hd, hdd]

theorem storeOK_push {P : Primitives} {s : Store} (c : List Nat) (d0 : Bytes)
    (hok : StoreOK P s) : StoreOK P (pushTL P s c d0).1 := by
  unfold pushTL
  by_cases hl : lookupBlob s (P.hashFn d0) = none
  · simp only [hl, Option.isNone_none, if_pos]
    intro h d hd
    by_cases he : P.hashFn d0 = h
    · simp [lookupBlob, he] at hd; rw [← hd, he]
    · simp [lookupBlob, he] at hd; exact hok h d hd
  · simpa [hl] using hok

theorem keysNodup_push {P : Primitives} {s : Store} (c : List Nat)
    (d0 : Bytes) (hs : KeysNodup s) : KeysNodup (pushTL P s c d0).1 := by
  unfold pushTL
  by_cases hl : lookupBlob s (P.hashFn d0) = none
  · have hm := (lookupBlob_eq_none_iff s (P.hashFn d0)).mp hl
    simp only [hl, Option.isNone_none, if_pos]
    exact List.Nodup.cons hm hs
  · simpa [hl] using hs

theorem storeKeys_push (P : Primitives) (s : Store) (c : List Nat)
    (d : Bytes) :
    storeKeys (pushTL P s c d).1 =
      if P.hashFn d ∈ storeKeys s then storeKeys s
      else P.hashFn d :: storeKeys s := by
  unfold pushTL
  by_cases hl : lookupBlob s (P.hashFn d) = none
  · have hm := (lookupBlob_eq_none_iff s (P.hashFn d)).mp hl
    simp [hl, storeKeys]
    rw [if_neg (by simpa [storeKeys] using hm)]
  · have hm : P.hashFn d ∈ storeKeys s := by
      rcases he : lookupBlob s (P.hashFn d) with _ | d2
      · exact absurd he hl
      · exact (lookupBlob_isSome_iff s (P.hashFn d)).mp (by rw [he]; rfl)
    simp [hl, hm]

theorem lookupBlob_push_isSome (P : Primitives) (s : Store) (c : List Nat)
    (d0 : Bytes) (h : Nat) :
    (lookupBlob (pushTL P s c d0).1 h).isSome ↔
      (lookupBlob s h).isSome ∨ h = P.hashFn d0 := by
  unfold pushTL
  by_cases hl : lookupBlob s (P.hashFn d0) = none
  · by_cases he : P.hashFn d0 = h
    · subst he; simp [hl, lookupBlob]
    · simp [hl, lookupBlob, he]
      exact fun hh => absurd hh.symm he
  · obtain ⟨d2, hd2⟩ := Option.ne_none_iff_exists'.mp hl
    by_cases he : h = P.hashFn d0
    · subst he; simp [hd2]
    · simp [hd2, he]

theorem chainWF_push {P : Primitives} {s : Store} {c : List Nat}
    (d0 : Bytes) (hwf : ChainWF s c) :
    ChainWF (pushTL P s c d0).1 (pushTL P s c d0).2 := by
  intro h
  have hch : (pushTL P s c d0).2 = c ++ [P.hashFn d0] := rfl
  rw [hch, List.mem_append, List.mem_singleton,
    lookupBlob_push_isSome P s c d0 h, hwf h]

/-! ### Pop lemmas -/

theorem popTL_spec {s : Store} {c : List Nat} (hwf : ChainWF s c)
    (hne : c ≠ []) :
    ∃ s2, popTL s c = (none, s2, c.dropLast) ∧ ChainWF s2 c.dropLast ∧
      (KeysNodup s → KeysNodup s2) := by
  have hlast : c.getLast? = some (c.getLast hne) := List.getLast?_eq_getLast c hne
  have hmemc : c.getLast hne ∈ c := List.getLast_mem hne
  have hmemiff : ∀ h2, h2 ∈ c ↔ h2 ∈ c.dropLast ∨ h2 = c.getLast hne := by
    intro h2
    conv_lhs => rw [← List.dropLast_append_getLast hne]
    rw [List.mem_append, List.mem_singleton]
  by_cases hmem : c.getLast hne ∈ c.dropLast
  · refine ⟨s, ?_, ?_, fun hs => hs⟩
    · simp [popTL, hlast, hmem]
    · intro h2
      rw [hwf h2, hmemiff h2]
      constructor
      · rintro (hc | hc)
        · exact hc
        · rw [hc]; exact hmem
      · exact fun hc => Or.inl hc
  · have hsm : (lookupBlob s (c.getLast hne)).isSome := (hwf _).mpr hmemc
    obtain ⟨d, hd⟩ := Option.isSome_iff_exists.mp hsm
    refine ⟨eraseBlob s (c.getLast hne), ?_, ?_, fun hs => keysNodup_erase _ hs⟩
    · simp [popTL, hlast, hmem, hd]
    · intro h2
      by_cases he : h2 = c.getLast hne
      · subst he
        simp [lookupBlob_erase_self, hmem]
      · rw [lookupBlob_erase_ne s _ h2 he, hwf h2, hmemiff h2]
        constructor
        · rintro (hc | hc)
          · exact hc
          · exact absurd hc he
        · exact fun hc => Or.inl hc

theorem popN_spec {s : Store} {c : List Nat} :
    ∀ k, ChainWF s c → KeysNodup s → k ≤ c.length →
    ∃ s2, popN k s c = (none, s2, c.take (c.length - k)) ∧
      ChainWF s2 (c.take (c.length - k)) ∧ KeysNodup s2 := by
  induction c using List.reverseRecOn generalizing s with
  | nil =>
    intro k hwf hnd hk
    have hk0 : k = 0 := by simpa using hk
    subst hk0
    exact ⟨s, rfl, hwf, hnd⟩
  | append_singleton c0 h0 ih =>
    intro k hwf hnd hk
    match k with
    | 0 =>
      refine ⟨s, ?_, ?_, hnd⟩
      · rw [Nat.sub_zero, List.take_length]
        rfl
      · rw [Nat.sub_zero, List.take_length]; exact hwf
    | k + 1 =>
      have hne : c0 ++ [h0] ≠ [] := by simp
      obtain ⟨s2, heq, hwf2, hnd2⟩ := popTL_spec hwf hne
      have hdl : (c0 ++ [h0]).dropLast = c0 := by
        simp
      rw [hdl] at heq hwf2
      have hlen : k ≤ c0.length := by
        have := hk; simp at this; omega
      obtain ⟨s3, geq, gwf, gnd⟩ := ih k hwf2 (hnd2 hnd) hlen
      have hred : popN (k + 1) s (c0 ++ [h0]) = popN k s2 c0 := by
        show (match popTL s (c0 ++ [h0]) with
          | (some e, s4, c2) => (some e, s4, c2)
          | (none, s4, c2) => popN k s4 c2) = popN k s2 c0
        rw [heq]
      have htake : c0.take (c0.length - k) =
          (c0 ++ [h0]).take ((c0 ++ [h0]).length - (k + 1)) := by
        have hl2 : (c0 ++ [h0]).length = c0.length + 1 := by simp
        rw [hl2, Nat.add_sub_add_right, List.take_append_of_le_length]
        omega
      rw [← htake]
      exact ⟨s3, by rw [hred]; exact geq, gwf, gnd⟩

/-! ### Replay lemmas -/

theorem getTL_ok_iff (s : Store) (c : List Nat) (i : Nat) (d : Bytes) :
    getTL s c i = .ok d ↔ ∃ h, c.get? i = some h ∧ lookupBlob s h = some d := by
  unfold getTL
  rcases hc : c.get? i with _ | h
  · simp
  · rcases hl : lookupBlob s h with _ | d2
    · simp [hl]
    · simp [hl]

theorem exceptBind_ok {α β ε : Type} (a : α) (f : α → Except ε β) :
    (Except.ok a : Except ε α).bind f = f a :=
  rfl

theorem exceptBind_error {α β ε : Type} (e : ε) (f : α → Except ε β) :
    (Except.error e : Except ε α).bind f = (Except.error e : Except ε β) :=
  rfl

theorem replayN_mono (P : Primitives) {s s2 : Store} {c c2 : List Nat}
    (hs : ∀ h d, lookupBlob s h = some d → lookupBlob s2 h = some d) :
    ∀ r i src v, (∀ j, j < i + r → c2.get? j = c.get? j) →
    replayN P s c i r src = .ok v → replayN P s2 c2 i r src = .ok v := by
  intro r
  induction r with
  | zero => intro i src v _ hok; exact hok
  | succ r ih =>
    intro i src v hget hok
    have hok1 : (replayStep P s c i src).bind
        (fun t => replayN P s c (i + 1) r t) = Except.ok v := hok
    rcases hstep : replayStep P s c i src with e | t
    · rw [hstep, exceptBind_error] at hok1; cases hok1
    · rw [hstep, exceptBind_ok] at hok1
      have hstep2 : replayStep P s2 c2 i src = .ok t := by
        unfold replayStep at hstep ⊢
        rcases hgt : getTL s c i with e | d
        · rw [hgt] at hstep; cases hstep
        · rw [hgt] at hstep
          have happ : Patch.applyP P d src = .ok t := hstep
          obtain ⟨h, hc, hl⟩ := (getTL_ok_iff s c i d).mp hgt
          have hgt2 : getTL s2 c2 i = .ok d :=
            (getTL_ok_iff s2 c2 i d).mpr
              ⟨h, by rw [hget i (by omega)]; exact hc, hs h d hl⟩
          rw [hgt2]
          exact happ
      show (replayStep P s2 c2 i src).bind
        (fun t => replayN P s2 c2 (i + 1) r t) = Except.ok v
      rw [hstep2, exceptBind_ok]
      exact ih (i + 1) t v (fun j hj => hget j (by omega)) hok1

theorem replayN_succ (P : Primitives) (s : Store) (c : List Nat) :
    ∀ r i src,
    replayN P s c i (r + 1) src =
      (replayN P s c i r src).bind (fun v => replayStep P s c (i + r) v) := by
  intro r
  induction r with
  | zero =>
    intro i src
    show (replayStep P s c i src).bind (fun t => replayN P s c (i + 1) 0 t) =
      (Except.ok src).bind fun v => replayStep P s c (i + 0) v
    rcases hstep : replayStep P s c i src with e | t
    · simp only [exceptBind_ok, exceptBind_error, Nat.add_zero, hstep]
    · simp only [exceptBind_ok, exceptBind_error, Nat.add_zero, hstep]
      rfl
  | succ r ih =>
    intro i src
    show (replayStep P s c i src).bind (fun t => replayN P s c (i + 1) (r + 1) t) =
      ((replayStep P s c i src).bind (fun t => replayN P s c (i + 1) r t)).bind
        fun v => replayStep P s c (i + (r + 1)) v
    rcases hstep : replayStep P s c i src with e | t
    · simp only [exceptBind_error]
    · simp only [exceptBind_ok]
      rw [ih (i + 1) t]
      have hir : i + 1 + r = i + (r + 1) := by omega
      rw [hir]

/-! ### Commit lemmas -/

theorem applyChain_of_ne (P : Primitives) (s : Store) {c : List Nat}
    (hne : c ≠ []) (i : Nat) :
    applyChain P s c i = replayN P s c 0 (i + 1) [] := by
  unfold applyChain
  rw [if_neg]
  simp [List.isEmpty_iff, hne]

theorem getLastD_cons_eq_get (c0 : Bytes) (cs' : List Bytes) :
    (c0 :: cs').getLastD [] = (c0 :: cs').get ⟨cs'.length, by simp⟩ := by
  rw [List.getLastD_eq_getLast?, List.getLast?_eq_getLast _ (by simp),
    Option.getD_some, List.getLast_eq_get]
  congr 1

theorem good_fresh (P : Primitives) (c0 : Bytes) :
    Good P [] (freshTF c0) [] := by
  refine ⟨rfl, ?_, List.nodup_nil, ?_, ?_⟩
  · intro h d hd; cases hd
  · intro h; simp [lookupBlob, freshTF]
  · intro i hi; cases hi

theorem good_source {P : Primitives} {s : Store} {tf : TF} {cs : List Bytes}
    (hg : Good P s tf cs) :
    replayN P s tf.chain 0 cs.length [] = .ok (cs.getLastD []) := by
  obtain ⟨hlen, hok, hnd, hwf, happ⟩ := hg
  rcases cs with _ | ⟨c0, cs'⟩
  · rfl
  · have hchne : tf.chain ≠ [] := by
      intro h0
      rw [h0] at hlen
      simp at hlen
    have h1 := happ cs'.length (by simp)
    unfold fileApply at h1
    rw [applyChain_of_ne P s hchne] at h1
    show replayN P s tf.chain 0 (cs'.length + 1) [] = _
    rw [h1, getLastD_cons_eq_get]

theorem commit_step {P : Primitives} (hinv : P.Inverses)
    (hinj : Function.Injective P.hashFn) {s : Store} {tf : TF}
    {cs : List Bytes} (hg : Good P s tf cs) (c : Bytes) :
    (fileCommit P s { tf with content := c }).1 = none ∧
    Good P (fileCommit P s { tf with content := c }).2.1
      (fileCommit P s { tf with content := c }).2.2 (cs ++ [c]) ∧
    (fileCommit P s { tf with content := c }).2.2.content = c := by
  have hsrc0 := good_source hg
  obtain ⟨hlen, hok, hnd, hwf, happ⟩ := hg
  have hli : (match ({ tf with content := c } : TF).latestVersionIndex with
      | some i => fileApply P s { tf with content := c } i
      | none => Except.ok []) = Except.ok (cs.getLastD []) := by
    rcases hcs2 : cs with _ | ⟨c0, cs'⟩
    · subst hcs2
      have hchnil : tf.chain = [] := List.length_eq_zero.mp hlen
      have h1 : ({ tf with content := c } : TF).latestVersionIndex = none := by
        unfold TF.latestVersionIndex
        show (match tf.chain.length with
          | 0 => none
          | Nat.succ n => some n) = none
        rw [hchnil]
        rfl
      rw [h1]
      rfl
    · subst hcs2
      have hchne : tf.chain ≠ [] := by
        intro h0
        rw [h0] at hlen
        simp at hlen
      have h1 : ({ tf with content := c } : TF).latestVersionIndex =
          some cs'.length := by
        unfold TF.latestVersionIndex
        show (match tf.chain.length with
          | 0 => none
          | Nat.succ n => some n) = some cs'.length
        rw [show tf.chain.length = cs'.length + 1 from by
          rw [hlen]; rfl]
      rw [h1]
      show fileApply P s { tf with content := c } cs'.length = _
      unfold fileApply
      show applyChain P s tf.chain cs'.length = _
      rw [applyChain_of_ne P s hchne]
      show replayN P s tf.chain 0 ((c0 :: cs').length) [] = _
      rw [hsrc0]
  have hred : fileCommit P s { tf with content := c } =
      (none, (pushTL P s tf.chain (Patch.new P (cs.getLastD []) c)).1,
        { tf with
          content := c,
          chain := (pushTL P s tf.chain (Patch.new P (cs.getLastD []) c)).2 }) := by
    unfold fileCommit
    rw [hli]
  rw [hred]
  refine ⟨rfl, ?_, rfl⟩
  show Good P (pushTL P s tf.chain (Patch.new P (cs.getLastD []) c)).1
    { tf with
      content := c,
      chain := (pushTL P s tf.chain (Patch.new P (cs.getLastD []) c)).2 }
    (cs ++ [c])
  refine ⟨?_, storeOK_push tf.chain _ hok, keysNodup_push tf.chain _ hnd, ?_, ?_⟩
  · show (tf.chain ++ [P.hashFn (Patch.new P (cs.getLastD []) c)]).length =
      (cs ++ [c]).length
    simp [hlen]
  · exact chainWF_push _ hwf
  · intro i hi
    have hmono : ∀ hh dd, lookupBlob s hh = some dd →
        lookupBlob (pushTL P s tf.chain (Patch.new P (cs.getLastD []) c)).1 hh =
          some dd :=
      fun hh dd hdd => lookupBlob_push_mono P s tf.chain _ hdd
    have hilen : i < cs.length + 1 := by simpa using hi
    show applyChain P
      (pushTL P s tf.chain (Patch.new P (cs.getLastD []) c)).1
      (tf.chain ++ [P.hashFn (Patch.new P (cs.getLastD []) c)]) i = _
    rw [applyChain_of_ne P _ (by simp) i]
    rcases Nat.lt_or_ge i cs.length with hilt | hige
    · -- a pre-existing version: the replay is unchanged by the push
      have hchne : tf.chain ≠ [] := by
        intro h0
        rw [h0] at hlen
        simp at hlen
        omega
      have h1 := happ i hilt
      unfold fileApply at h1
      rw [applyChain_of_ne P s hchne] at h1
      have hgets : ∀ j, j < 0 + (i + 1) →
          (tf.chain ++ [P.hashFn (Patch.new P (cs.getLastD []) c)]).get? j =
            tf.chain.get? j := by
        intro j hj
        exact List.get?_append (by omega)
      have h2 := replayN_mono P hmono (i + 1) 0 [] _ hgets h1
      rw [h2]
      congr 1
      rw [List.get_append i hilt]
    · -- the newly pushed version: replay the old chain, then the new patch
      have hieq : i = cs.length := by omega
      subst hieq
      rw [replayN_succ]
      have hgets : ∀ j, j < 0 + cs.length →
          (tf.chain ++ [P.hashFn (Patch.new P (cs.getLastD []) c)]).get? j =
            tf.chain.get? j := by
        intro j hj
        exact List.get?_append (by omega)
      have hbase := replayN_mono P hmono cs.length 0 [] _ hgets hsrc0
      rw [hbase, exceptBind_ok]
      unfold replayStep
      have hgt : getTL
          (pushTL P s tf.chain (Patch.new P (cs.getLastD []) c)).1
          (tf.chain ++ [P.hashFn (Patch.new P (cs.getLastD []) c)])
          (0 + cs.length) = .ok (Patch.new P (cs.getLastD []) c) := by
        apply (getTL_ok_iff _ _ _ _).mpr
        refine ⟨P.hashFn (Patch.new P (cs.getLastD []) c), ?_, ?_⟩
        · rw [Nat.zero_add, ← hlen]
          exact List.get?_concat_length _ _
        · exact lookupBlob_push_self s tf.chain _ hok hinj
      rw [hgt]
      have hget2 : (cs ++ [c]).get ⟨cs.length, hi⟩ = c := by
        have h5 := List.get?_concat_length cs c
        rw [List.get?_eq_get hi] at h5
        exact Option.some.inj h5
      rw [hget2]
      show Patch.applyP P (Patch.new P (cs.getLastD []) c) (cs.getLastD []) =
        Except.ok c
      unfold Patch.applyP Patch.new
      simp [hinv.1, hinv.2]

theorem commitSeq_good {P : Primitives} (hinv : P.Inverses)
    (hinj : Function.Injective P.hashFn) :
    ∀ (cs2 : List Bytes) {s : Store} {tf : TF} {cs : List Bytes},
    Good P s tf cs →
    (commitSeq P s tf cs2).1 = none ∧
    Good P (commitSeq P s tf cs2).2.1 (commitSeq P s tf cs2).2.2 (cs ++ cs2) := by
  intro cs2
  induction cs2 with
  | nil =>
    intro s tf cs hg
    exact ⟨rfl, by simpa using hg⟩
  | cons c rest ih =>
    intro s tf cs hg
    obtain ⟨h1, h2, _⟩ := commit_step hinv hinj hg c
    have hfc : fileCommit P s { tf with content := c } =
        (none, (fileCommit P s { tf with content := c }).2.1,
          (fileCommit P s { tf with content := c }).2.2) := by
      rw [← h1]
    have hred : commitSeq P s tf (c :: rest) =
        commitSeq P (fileCommit P s { tf with content := c }).2.1
          (fileCommit P s { tf with content := c }).2.2 rest := by
      show (match fileCommit P s { tf with content := c } with
        | (none, s2, tf2) => commitSeq P s2 tf2 rest
        | (some e, s2, tf2) => (some e, s2, tf2)) = _
      rw [hfc]
    rw [hred]
    have hrest := ih h2
    refine ⟨hrest.1, ?_⟩
    have := hrest.2
    simpa [List.append_assoc] using this

/-! ### Version-count lemmas for files, folders and items -/

theorem latestVersionIndex_some {tf : TF} {m : Nat}
    (h : tf.chain.length = m + 1) : tf.latestVersionIndex = some m := by
  unfold TF.latestVersionIndex
  rw [h]

theorem latestVersionIndex_none {tf : TF} (h : tf.chain.length = 0) :
    tf.latestVersionIndex = none := by
  unfold TF.latestVersionIndex
  rw [h]

theorem fileCommit_ok_chain (P : Primitives) (s : Store) (tf : TF)
    (h : (fileCommit P s tf).1 = none) :
    ∃ d, (fileCommit P s tf).2.2.chain = tf.chain ++ [P.hashFn d] := by
  rcases hsrc : (match tf.latestVersionIndex with
      | some i => fileApply P s tf i
      | none => Except.ok []) with e | src
  · have hx : fileCommit P s tf = (some e, s, tf) := by
      unfold fileCommit
      rw [hsrc]
    rw [hx] at h
    cases h
  · have hx : fileCommit P s tf =
        (none, (pushTL P s tf.chain (Patch.new P src tf.content)).1,
          { tf with chain := (pushTL P s tf.chain (Patch.new P src tf.content)).2 }) := by
      unfold fileCommit
      rw [hsrc]
    rw [hx]
    exact ⟨Patch.new P src tf.content, rfl⟩

theorem fileLoadVersion_frame (P : Primitives) (s : Store) (tf : TF) (i : Nat) :
    (fileLoadVersion P s tf i).2.1 = s ∧
    (fileLoadVersion P s tf i).2.2.chain = tf.chain := by
  rcases hap : fileApply P s tf i with e | v
  · have hx : fileLoadVersion P s tf i = (some e, s, tf) := by
      unfold fileLoadVersion
      rw [hap]
    rw [hx]
    exact ⟨rfl, rfl⟩
  · have hx : fileLoadVersion P s tf i = (none, s, { tf with content := v }) := by
      unfold fileLoadVersion
      rw [hap]
    rw [hx]
    exact ⟨rfl, rfl⟩

theorem popTL_none_shape {s : Store} {c : List Nat} {s2 : Store}
    {c2 : List Nat} (h : popTL s c = (none, s2, c2)) :
    c ≠ [] ∧ c2 = c.dropLast := by
  rcases hc : c.getLast? with _ | h0
  · have hx : popTL s c = (some .noVersionsAvailable, s, c) := by
      unfold popTL
      rw [hc]
    rw [hx] at h
    simp at h
  · have hcne : c ≠ [] := by
      intro h1
      rw [h1] at hc
      simp at hc
    by_cases hm : h0 ∈ c.dropLast
    · have hx : popTL s c = (none, s, c.dropLast) := by
        unfold popTL
        rw [hc]
        simp [hm]
      rw [hx] at h
      have h2 := congrArg (fun p => p.2.2) h
      exact ⟨hcne, h2.symm⟩
    · rcases hl : lookupBlob s h0 with _ | d
      · have hx : popTL s c = (some .ioError, s, c.dropLast) := by
          unfold popTL
          rw [hc]
          simp [hm, hl]
        rw [hx] at h
        simp at h
      · have hx : popTL s c = (none, eraseBlob s h0, c.dropLast) := by
          unfold popTL
          rw [hc]
          simp [hm, hl]
        rw [hx] at h
        have h2 := congrArg (fun p => p.2.2) h
        exact ⟨hcne, h2.symm⟩

theorem popN_ok_len :
    ∀ (k : Nat) (s : Store) (c : List Nat), (popN k s c).1 = none →
    (popN k s c).2.2.length = c.length - k ∧ k ≤ c.length := by
  intro k
  induction k with
  | zero =>
    intro s c _
    exact ⟨by simp [popN], Nat.zero_le _⟩
  | succ k ih =>
    intro s c h
    rcases hp : popTL s c with ⟨e2, s2, c2⟩
    cases e2 with
    | some e3 =>
      have hx : popN (k + 1) s c = (some e3, s2, c2) := by
        show (match popTL s c with
          | (some e, s4, c4) => (some e, s4, c4)
          | (none, s4, c4) => popN k s4 c4) = _
        rw [hp]
      rw [hx] at h
      cases h
    | none =>
      obtain ⟨hcne, hc2⟩ := popTL_none_shape hp
      have hred : popN (k + 1) s c = popN k s2 c2 := by
        show (match popTL s c with
          | (some e, s4, c4) => (some e, s4, c4)
          | (none, s4, c4) => popN k s4 c4) = _
        rw [hp]
      rw [hred] at h
      obtain ⟨ihl, ihk⟩ := ih s2 c2 h
      subst hc2
      rw [List.length_dropLast] at ihl ihk
      have hpos : 0 < c.length := List.length_pos.mpr hcne
      constructor
      · rw [hred]
        omega
      · omega

theorem itemCommit_count (P : Primitives) (x : Item)
    (h : (itemCommit P x).1 = none) :
    (itemCommit P x).2.versionCount = x.versionCount + 1 := by
  cases x with
  | file s tf =>
    have h2 : (fileCommit P s tf).1 = none := h
    obtain ⟨d, hd⟩ := fileCommit_ok_chain P s tf h2
    show (fileCommit P s tf).2.2.chain.length = tf.chain.length + 1
    rw [hd]
    simp
  | folder cs n =>
    rcases he : itemsCommit P cs with ⟨_ | e, cs2⟩
    · have hred : itemCommit P (.folder cs n) = (none, .folder cs2 (n + 1)) := by
        show (match itemsCommit P cs with
          | (none, cs3) => (none, Item.folder cs3 (n + 1))
          | (some e, cs3) => (some e, Item.folder cs3 n)) = _
        rw [he]
      rw [hred]
      rfl
    · have hred : itemCommit P (.folder cs n) = (some e, .folder cs2 n) := by
        show (match itemsCommit P cs with
          | (none, cs3) => (none, Item.folder cs3 (n + 1))
          | (some e, cs3) => (some e, Item.folder cs3 n)) = _
        rw [he]
      rw [hred] at h
      cases h

theorem itemLoadVersion_count (P : Primitives) (i : Nat) (x : Item) :
    (itemLoadVersion P i x).2.versionCount = x.versionCount := by
  cases x with
  | file s tf =>
    show (fileLoadVersion P s tf i).2.2.chain.length = tf.chain.length
    rw [(fileLoadVersion_frame P s tf i).2]
  | folder cs n => rfl

theorem itemDeleteVersion_count (i : Nat) (x : Item)
    (hb : i ≤ x.versionCount) (h : (itemDeleteVersion i x).1 = none) :
    (itemDeleteVersion i x).2.versionCount = i := by
  cases x with
  | file s tf =>
    have h2 : (fileDeleteVersion s tf i).1 = none := h
    rcases hli : tf.latestVersionIndex with _ | m
    · have hx : fileDeleteVersion s tf i = (some .noVersionsAvailable, s, tf) := by
        unfold fileDeleteVersion
        rw [hli]
      rw [hx] at h2
      cases h2
    · have hlen : tf.chain.length = m + 1 := by
        unfold TF.latestVersionIndex at hli
        rcases hl2 : tf.chain.length with _ | m2
        · rw [hl2] at hli; cases hli
        · rw [hl2] at hli
          have : m2 = m := by
            have h3 : (some m2 : Option Nat) = some m := hli
            exact Option.some.inj h3
          rw [this]
      have hred : fileDeleteVersion s tf i =
          ((popN (m + 1 - i) s tf.chain).1, (popN (m + 1 - i) s tf.chain).2.1,
            { tf with chain := (popN (m + 1 - i) s tf.chain).2.2 }) := by
        unfold fileDeleteVersion
        rw [hli]
      rw [hred] at h2
      obtain ⟨hlen2, _⟩ := popN_ok_len (m + 1 - i) s tf.chain h2
      show (fileDeleteVersion s tf i).2.2.chain.length = i
      rw [hred]
      show (popN (m + 1 - i) s tf.chain).2.2.length = i
      have hbv : i ≤ tf.chain.length := hb
      omega
  | folder cs n =>
    rcases he : itemsDeleteVersion i cs with ⟨_ | e, cs2⟩
    · have hred : itemDeleteVersion i (.folder cs n) = (none, .folder cs2 i) := by
        show (match itemsDeleteVersion i cs with
          | (none, cs3) => (none, Item.folder cs3 i)
          | (some e, cs3) => (some e, Item.folder cs3 n)) = _
        rw [he]
      rw [hred]
      rfl
    · have hred : itemDeleteVersion i (.folder cs n) = (some e, .folder cs2 n) := by
        show (match itemsDeleteVersion i cs with
          | (none, cs3) => (none, Item.folder cs3 i)
          | (some e, cs3) => (some e, Item.folder cs3 n)) = _
        rw [he]
      rw [hred] at h
      cases h

theorem itemDeleteVersion_folder_count (i : Nat) (cs : List Item) (n : Nat)
    (h : (itemDeleteVersion i (Item.folder cs n)).1 = none) :
    (itemDeleteVersion i (Item.folder cs n)).2.versionCount = i := by
  rcases he : itemsDeleteVersion i cs with ⟨_ | e, cs2⟩
  · have hred : itemDeleteVersion i (.folder cs n) = (none, .folder cs2 i) := by
      show (match itemsDeleteVersion i cs with
        | (none, cs3) => (none, Item.folder cs3 i)
        | (some e, cs3) => (some e, Item.folder cs3 n)) = _
      rw [he]
    rw [hred]
    rfl
  · have hred : itemDeleteVersion i (.folder cs n) = (some e, .folder cs2 n) := by
      show (match itemsDeleteVersion i cs with
        | (none, cs3) => (none, Item.folder cs3 i)
        | (some e, cs3) => (some e, Item.folder cs3 n)) = _
      rw [he]
    rw [hred] at h
    cases h

/-! ### Child-loop lemmas -/

theorem itemsCommit_none_mem (P : Primitives) :
    ∀ (xs ys : List Item), itemsCommit P xs = (none, ys) →
    ys.length = xs.length ∧ ∀ y ∈ ys, ∃ x ∈ xs, itemCommit P x = (none, y) := by
  intro xs
  induction xs with
  | nil =>
    intro ys h
    have h2 : ((none, []) : Option VErr × List Item) = (none, ys) := h
    have h3 : ([] : List Item) = ys := congrArg Prod.snd h2
    refine ⟨by rw [← h3], ?_⟩
    intro y hy
    rw [← h3] at hy
    cases hy
  | cons x xs ih =>
    intro ys h
    rcases hx : itemCommit P x with ⟨_ | e, x2⟩
    · have h2 : ((itemsCommit P xs).1, x2 :: (itemsCommit P xs).2) = (none, ys) := by
        have h3 : (match itemCommit P x with
          | (none, x3) =>
            (match itemsCommit P xs with
             | (e, xs2) => (e, x3 :: xs2))
          | (some e, x3) => (some e, x3 :: xs)) = (none, ys) := h
        rw [hx] at h3
        exact h3
      have hfst : (itemsCommit P xs).1 = none := congrArg Prod.fst h2
      have hsnd : x2 :: (itemsCommit P xs).2 = ys := congrArg Prod.snd h2
      have hxs : itemsCommit P xs = (none, (itemsCommit P xs).2) := by
        rw [← hfst]
      obtain ⟨hl, hmem⟩ := ih _ hxs
      rw [← hsnd]
      refine ⟨by simp [hl], ?_⟩
      intro y hy
      rcases List.mem_cons.mp hy with hy2 | hy2
      · exact ⟨x, List.mem_cons_self _ _, by rw [hx, hy2]⟩
      · obtain ⟨x3, hx3, hc3⟩ := hmem y hy2
        exact ⟨x3, List.mem_cons_of_mem _ hx3, hc3⟩
    · exfalso
      have h2 : ((some e, x2 :: xs) : Option VErr × List Item) = (none, ys) := by
        have h3 : (match itemCommit P x with
          | (none, x3) =>
            (match itemsCommit P xs with
             | (e, xs2) => (e, x3 :: xs2))
          | (some e, x3) => (some e, x3 :: xs)) = (none, ys) := h
        rw [hx] at h3
        exact h3
      have := congrArg Prod.fst h2
      simp at this

theorem itemsLoadVersion_none_mem (P : Primitives) (i : Nat) :
    ∀ (xs ys : List Item), itemsLoadVersion P i xs = (none, ys) →
    ys.length = xs.length ∧
      ∀ y ∈ ys, ∃ x ∈ xs, itemLoadVersion P i x = (none, y) := by
  intro xs
  induction xs with
  | nil =>
    intro ys h
    have h2 : ((none, []) : Option VErr × List Item) = (none, ys) := h
    have h3 : ([] : List Item) = ys := congrArg Prod.snd h2
    refine ⟨by rw [← h3], ?_⟩
    intro y hy
    rw [← h3] at hy
    cases hy
  | cons x xs ih =>
    intro ys h
    rcases hx : itemLoadVersion P i x with ⟨_ | e, x2⟩
    · have h2 : ((itemsLoadVersion P i xs).1, x2 :: (itemsLoadVersion P i xs).2) =
          (none, ys) := by
        have h3 : (match itemLoadVersion P i x with
          | (none, x3) =>
            (match itemsLoadVersion P i xs with
             | (e, xs2) => (e, x3 :: xs2))
          | (some e, x3) => (some e, x3 :: xs)) = (none, ys) := h
        rw [hx] at h3
        exact h3
      have hfst : (itemsLoadVersion P i xs).1 = none := congrArg Prod.fst h2
      have hsnd : x2 :: (itemsLoadVersion P i xs).2 = ys := congrArg Prod.snd h2
      have hxs : itemsLoadVersion P i xs = (none, (itemsLoadVersion P i xs).2) := by
        rw [← hfst]
      obtain ⟨hl, hmem⟩ := ih _ hxs
      rw [← hsnd]
      refine ⟨by simp [hl], ?_⟩
      intro y hy
      rcases List.mem_cons.mp hy with hy2 | hy2
      · exact ⟨x, List.mem_cons_self _ _, by rw [hx, hy2]⟩
      · obtain ⟨x3, hx3, hc3⟩ := hmem y hy2
        exact ⟨x3, List.mem_cons_of_mem _ hx3, hc3⟩
    · exfalso
      have h2 : ((some e, x2 :: xs) : Option VErr × List Item) = (none, ys) := by
        have h3 : (match itemLoadVersion P i x with
          | (none, x3) =>
            (match itemsLoadVersion P i xs with
             | (e, xs2) => (e, x3 :: xs2))
          | (some e, x3) => (some e, x3 :: xs)) = (none, ys) := h
        rw [hx] at h3
        exact h3
      have := congrArg Prod.fst h2
      simp at this

theorem itemsDeleteVersion_none_mem (i : Nat) :
    ∀ (xs ys : List Item), itemsDeleteVersion i xs = (none, ys) →
    ys.length = xs.length ∧
      ∀ y ∈ ys, ∃ x ∈ xs, itemDeleteVersion i x = (none, y) := by
  intro xs
  induction xs with
  | nil =>
    intro ys h
    have h2 : ((none, []) : Option VErr × List Item) = (none, ys) := h
    have h3 : ([] : List Item) = ys := congrArg Prod.snd h2
    refine ⟨by rw [← h3], ?_⟩
    intro y hy
    rw [← h3] at hy
    cases hy
  | cons x xs ih =>
    intro ys h
    rcases hx : itemDeleteVersion i x with ⟨_ | e, x2⟩
    · have h2 : ((itemsDeleteVersion i xs).1, x2 :: (itemsDeleteVersion i xs).2) =
          (none, ys) := by
        have h3 : (match itemDeleteVersion i x with
          | (none, x3) =>
            (match itemsDeleteVersion i xs with
             | (e, xs2) => (e, x3 :: xs2))
          | (some e, x3) => (some e, x3 :: xs)) = (none, ys) := h
        rw [hx] at h3
        exact h3
      have hfst : (itemsDeleteVersion i xs).1 = none := congrArg Prod.fst h2
      have hsnd : x2 :: (itemsDeleteVersion i xs).2 = ys := congrArg Prod.snd h2
      have hxs : itemsDeleteVersion i xs = (none, (itemsDeleteVersion i xs).2) := by
        rw [← hfst]
      obtain ⟨hl, hmem⟩ := ih _ hxs
      rw [← hsnd]
      refine ⟨by simp [hl], ?_⟩
      intro y hy
      rcases List.mem_cons.mp hy with hy2 | hy2
      · exact ⟨x, List.mem_cons_self _ _, by rw [hx, hy2]⟩
      · obtain ⟨x3, hx3, hc3⟩ := hmem y hy2
        exact ⟨x3, List.mem_cons_of_mem _ hx3, hc3⟩
    · exfalso
      have h2 : ((some e, x2 :: xs) : Option VErr × List Item) = (none, ys) := by
        have h3 : (match itemDeleteVersion i x with
          | (none, x3) =>
            (match itemsDeleteVersion i xs with
             | (e, xs2) => (e, x3 :: xs2))
          | (some e, x3) => (some e, x3 :: xs)) = (none, ys) := h
        rw [hx] at h3
        exact h3
      have := congrArg Prod.fst h2
      simp at this

theorem itemsCommit_append (P : Primitives) (y : Item) (zs : List Item)
    (e : VErr) :
    ∀ xs : List Item, (∀ x ∈ xs, (itemCommit P x).1 = none) →
    (itemCommit P y).1 = some e →
    itemsCommit P (xs ++ y :: zs) =
      (some e, xs.map (fun x => (itemCommit P x).2) ++ (itemCommit P y).2 :: zs) := by
  intro xs
  induction xs with
  | nil =>
    intro _ hy
    have hyeq : itemCommit P y = (some e, (itemCommit P y).2) := by
      rw [← hy]
    show (match itemCommit P y with
      | (none, x2) =>
        (match itemsCommit P zs with
         | (e2, xs2) => (e2, x2 :: xs2))
      | (some e2, x2) => (some e2, x2 :: zs)) = _
    rw [hyeq]
    rfl
  | cons x xs ih =>
    intro hxs hy
    have hx : (itemCommit P x).1 = none := hxs x (List.mem_cons_self _ _)
    have hxeq : itemCommit P x = (none, (itemCommit P x).2) := by
      rw [← hx]
    show (match itemCommit P x with
      | (none, x2) =>
        (match itemsCommit P (xs ++ y :: zs) with
         | (e2, xs2) => (e2, x2 :: xs2))
      | (some e2, x2) => (some e2, x2 :: (xs ++ y :: zs))) = _
    rw [hxeq, ih (fun x2 hx2 => hxs x2 (List.mem_cons_of_mem _ hx2)) hy]
    rfl

theorem itemsLoadVersion_append (P : Primitives) (i : Nat) (y : Item)
    (zs : List Item) (e : VErr) :
    ∀ xs : List Item, (∀ x ∈ xs, (itemLoadVersion P i x).1 = none) →
    (itemLoadVersion P i y).1 = some e →
    itemsLoadVersion P i (xs ++ y :: zs) =
      (some e, xs.map (fun x => (itemLoadVersion P i x).2) ++
        (itemLoadVersion P i y).2 :: zs) := by
  intro xs
  induction xs with
  | nil =>
    intro _ hy
    have hyeq : itemLoadVersion P i y = (some e, (itemLoadVersion P i y).2) := by
      rw [← hy]
    show (match itemLoadVersion P i y with
      | (none, x2) =>
        (match itemsLoadVersion P i zs with
         | (e2, xs2) => (e2, x2 :: xs2))
      | (some e2, x2) => (some e2, x2 :: zs)) = _
    rw [hyeq]
    rfl
  | cons x xs ih =>
    intro hxs hy
    have hx : (itemLoadVersion P i x).1 = none := hxs x (List.mem_cons_self _ _)
    have hxeq : itemLoadVersion P i x = (none, (itemLoadVersion P i x).2) := by
      rw [← hx]
    show (match itemLoadVersion P i x with
      | (none, x2) =>
        (match itemsLoadVersion P i (xs ++ y :: zs) with
         | (e2, xs2) => (e2, x2 :: xs2))
      | (some e2, x2) => (some e2, x2 :: (xs ++ y :: zs))) = _
    rw [hxeq, ih (fun x2 hx2 => hxs x2 (List.mem_cons_of_mem _ hx2)) hy]
    rfl

theorem itemsDeleteVersion_append (i : Nat) (y : Item) (zs : List Item)
    (e : VErr) :
    ∀ xs : List Item, (∀ x ∈ xs, (itemDeleteVersion i x).1 = none) →
    (itemDeleteVersion i y).1 = some e →
    itemsDeleteVersion i (xs ++ y :: zs) =
      (some e, xs.map (fun x => (itemDeleteVersion i x).2) ++
        (itemDeleteVersion i y).2 :: zs) := by
  intro xs
  induction xs with
  | nil =>
    intro _ hy
    have hyeq : itemDeleteVersion i y = (some e, (itemDeleteVersion i y).2) := by
      rw [← hy]
    show (match itemDeleteVersion i y with
      | (none, x2) =>
        (match itemsDeleteVersion i zs with
         | (e2, xs2) => (e2, x2 :: xs2))
      | (some e2, x2) => (some e2, x2 :: zs)) = _
    rw [hyeq]
    rfl
  | cons x xs ih =>
    intro hxs hy
    have hx : (itemDeleteVersion i x).1 = none := hxs x (List.mem_cons_self _ _)
    have hxeq : itemDeleteVersion i x = (none, (itemDeleteVersion i x).2) := by
      rw [← hx]
    show (match itemDeleteVersion i x with
      | (none, x2) =>
        (match itemsDeleteVersion i (xs ++ y :: zs) with
         | (e2, xs2) => (e2, x2 :: xs2))
      | (some e2, x2) => (some e2, x2 :: (xs ++ y :: zs))) = _
    rw [hxeq, ih (fun x2 hx2 => hxs x2 (List.mem_cons_of_mem _ hx2)) hy]
    rfl

/-! ### Timeline operation sequences -/

theorem runOps_wf (P : Primitives) :
    ∀ (ops : List TLOp) (sc : Store × List Nat),
    ChainWF sc.1 sc.2 → KeysNodup sc.1 →
    ChainWF (runOps P ops sc).1 (runOps P ops sc).2 ∧
      KeysNodup (runOps P ops sc).1 := by
  intro ops
  induction ops with
  | nil => intro sc h1 h2; exact ⟨h1, h2⟩
  | cons op ops ih =>
    intro sc h1 h2
    have hstep : ChainWF (runOp P sc op).1 (runOp P sc op).2 ∧
        KeysNodup (runOp P sc op).1 := by
      cases op with
      | push d => exact ⟨chainWF_push d h1, keysNodup_push _ _ h2⟩
      | pop =>
        by_cases hne : sc.2 = []
        · have hx : (popTL sc.1 sc.2).2 = (sc.1, sc.2) := by
            rw [hne]
            rfl
          show ChainWF (popTL sc.1 sc.2).2.1 (popTL sc.1 sc.2).2.2 ∧
            KeysNodup (popTL sc.1 sc.2).2.1
          rw [hx]
          exact ⟨h1, h2⟩
        · obtain ⟨s2, heq, hwf2, hnd2⟩ := popTL_spec h1 hne
          show ChainWF (popTL sc.1 sc.2).2.1 (popTL sc.1 sc.2).2.2 ∧
            KeysNodup (popTL sc.1 sc.2).2.1
          rw [heq]
          exact ⟨hwf2, hnd2 h2⟩
      | trunc i =>
        by_cases hgt : i > sc.2.length
        · have hx : runOp P sc (.trunc i) = sc := by
            show (if i > sc.2.length then sc
              else (popN (sc.2.length - i) sc.1 sc.2).2) = sc
            rw [if_pos hgt]
          rw [hx]
          exact ⟨h1, h2⟩
        · obtain ⟨s2, heq, hwf2, hnd2⟩ :=
            popN_spec (sc.2.length - i) h1 h2 (by omega)
          have hx : runOp P sc (.trunc i) =
              (popN (sc.2.length - i) sc.1 sc.2).2 := by
            show (if i > sc.2.length then sc
              else (popN (sc.2.length - i) sc.1 sc.2).2) = _
            rw [if_neg hgt]
          rw [hx, heq]
          exact ⟨hwf2, hnd2⟩
    exact ih _ hstep.1 hstep.2

/-! ### Concrete primitives -/

theorem chainWF_of_forall_mem {s : Store} {c : List Nat}
    (h1 : ∀ h ∈ storeKeys s, h ∈ c) (h2 : ∀ h ∈ c, h ∈ storeKeys s) :
    ChainWF s c := by
  intro h
  rw [lookupBlob_isSome_iff]
  exact ⟨h1 h, h2 h⟩

theorem idPrims_inverses : idPrims.Inverses :=
  ⟨fun _ _ => rfl, fun _ => rfl⟩

theorem hashEnc_injective : Function.Injective hashEnc := by
  intro a
  induction a with
  | nil =>
    intro b h
    cases b with
    | nil => rfl
    | cons y m => simp [hashEnc] at h
  | cons x l ih =>
    intro b h
    cases b with
    | nil => simp [hashEnc] at h
    | cons y m =>
      have h2 : Nat.pair x (hashEnc l) = Nat.pair y (hashEnc m) := by
        have h3 : Nat.pair x (hashEnc l) + 1 = Nat.pair y (hashEnc m) + 1 := h
        omega
      obtain ⟨hxy, hlm⟩ := Nat.pair_eq_pair.mp h2
      rw [hxy, ih hlm]

/-! ### Claim theorems -/

/-- C1: reconstructing version `i` replays patches `0..=i` from the empty
buffer; under the supplied-primitive axioms (delta/apply and
compress/decompress mutual inverses, collision-free content hash), a
TrackedFile committed with any sequence of successive contents — in
particular `"a"`, `"ab"`, `"abc"` — has every commit succeed, has
`version_count()` equal to the number of commits, and `load_version(i)`
writes the `i`-th committed content to the tracked path. -/
theorem c1_chain_reconstruction (P : Primitives) (hinv : P.Inverses)
    (hinj : Function.Injective P.hashFn) (cs : List Bytes) (i : Nat)
    (hi : i < cs.length) :
    (commitSeq P [] (freshTF []) cs).1 = none ∧
    TF.versionCount (commitSeq P [] (freshTF []) cs).2.2 = cs.length ∧
    fileLoadVersion P (commitSeq P [] (freshTF []) cs).2.1
      (commitSeq P [] (freshTF []) cs).2.2 i =
      (none, (commitSeq P [] (freshTF []) cs).2.1,
        { (commitSeq P [] (freshTF []) cs).2.2 with content := cs.get ⟨i, hi⟩ }) := by
  obtain ⟨h1, h2⟩ := commitSeq_good hinv hinj cs (good_fresh P [])
  obtain ⟨hlen, hok, hnd, hwf, happ⟩ := h2
  refine ⟨h1, hlen, ?_⟩
  have hap := happ i hi
  unfold fileLoadVersion
  rw [hap]
  rfl

/-- Witness for C1 at the spec's concrete scenario `"a"`, `"ab"`,
`"abc"` with the concrete primitives, loading version 1. -/
theorem c1_chain_reconstruction_witness :
    idPrims.Inverses ∧ Function.Injective idPrims.hashFn ∧ 1 < csABC.length ∧
    fileLoadVersion idPrims (commitSeq idPrims [] (freshTF []) csABC).2.1
      (commitSeq idPrims [] (freshTF []) csABC).2.2 1 =
      (none, (commitSeq idPrims [] (freshTF []) csABC).2.1,
        { (commitSeq idPrims [] (freshTF []) csABC).2.2 with
          content := csABC.get ⟨1, by decide⟩ }) :=
  ⟨idPrims_inverses, hashEnc_injective, by decide,
    (c1_chain_reconstruction idPrims idPrims_inverses hashEnc_injective
      csABC 1 (by decide)).2.2⟩

/-- C2: building a patch from buffers `s`, `t` and applying it to `s`
returns exactly `t`, both for the raw-delta pipeline of `src/patch.rs`
(`from_buffers`/`apply`) and for the compressed pipeline
(`Patch::new` = diff-then-compress, `Patch::apply` =
decompress-then-apply), under the axiom that `diff`/`apply` and
`compress`/`decompress` are mutual inverses. -/
theorem c2_patch_round_trip (P : Primitives) (hinv : P.Inverses)
    (s t : Bytes) :
    Patch.applyRaw P (Patch.fromBuffers P s t) s = .ok t ∧
    Patch.applyP P (Patch.new P s t) s = .ok t := by
  constructor
  · simp [Patch.applyRaw, Patch.fromBuffers, hinv.1]
  · simp [Patch.applyP, Patch.new, hinv.1, hinv.2]

/-- Witness for C2 at concrete buffers with the concrete primitives. -/
theorem c2_patch_round_trip_witness :
    idPrims.Inverses ∧
    (Patch.applyRaw idPrims (Patch.fromBuffers idPrims [1, 2] [3]) [1, 2] =
        .ok [3] ∧
      Patch.applyP idPrims (Patch.new idPrims [1, 2] [3]) [1, 2] = .ok [3]) :=
  ⟨idPrims_inverses, c2_patch_round_trip idPrims idPrims_inverses [1, 2] [3]⟩

/-- C4: starting from a fresh timeline, after any sequence of
push/pop/truncate operations a blob file for hash `H` exists on disk iff
`H` appears in the chain, the directory holds at most one blob per hash,
and a further push always appends exactly one chain entry while creating
a new blob only when no blob of that hash exists yet (duplication is
never an error — push is total). -/
theorem c4_timeline_blob_invariant (P : Primitives) (ops : List TLOp) :
    ChainWF (runOps P ops ([], [])).1 (runOps P ops ([], [])).2 ∧
    KeysNodup (runOps P ops ([], [])).1 ∧
    (∀ d, (pushTL P (runOps P ops ([], [])).1 (runOps P ops ([], [])).2 d).2.length =
      (runOps P ops ([], [])).2.length + 1) ∧
    (∀ d, storeKeys (pushTL P (runOps P ops ([], [])).1
        (runOps P ops ([], [])).2 d).1 =
      if P.hashFn d ∈ storeKeys (runOps P ops ([], [])).1
      then storeKeys (runOps P ops ([], [])).1
      else P.hashFn d :: storeKeys (runOps P ops ([], [])).1) := by
  have base1 : ChainWF ([] : Store) ([] : List Nat) := by
    intro h
    simp [lookupBlob]
  obtain ⟨hwf, hnd⟩ := runOps_wf P ops ([], []) base1 List.nodup_nil
  refine ⟨hwf, hnd, ?_, ?_⟩
  · intro d
    show ((runOps P ops ([], [])).2 ++ [P.hashFn d]).length = _
    simp
  · intro d
    exact storeKeys_push P _ _ d

/-- C8: a freshly constructed TrackedFile has `version_count() == 0`, and
`load_version(0)` fails with `NoVersionsAvailable`, leaving both the
store and the file state unchanged. -/
theorem c8_empty_baseline (P : Primitives) (s : Store) (c : Bytes) :
    TF.versionCount (freshTF c) = 0 ∧
    fileLoadVersion P s (freshTF c) 0 =
      (some .noVersionsAvailable, s, freshTF c) :=
  ⟨rfl, rfl⟩

/-- C10: `load_version(index)` — succeeding or failing — never changes
the version history: the store of blobs, the ordered chain of patch
references, and hence `version_count()` are identical before and after
the call; only the live file content may change. -/
theorem c10_load_version_frame (P : Primitives) (s : Store) (tf : TF)
    (i : Nat) :
    (fileLoadVersion P s tf i).2.1 = s ∧
    (fileLoadVersion P s tf i).2.2.chain = tf.chain ∧
    TF.versionCount (fileLoadVersion P s tf i).2.2 = TF.versionCount tf := by
  obtain ⟨h1, h2⟩ := fileLoadVersion_frame P s tf i
  refine ⟨h1, h2, ?_⟩
  unfold TF.versionCount
  rw [h2]

/-- C3 counterexample: after committing `"a"`, `"ab"`, `"abc"`,
`delete_version(1)` succeeds and leaves `version_count() == 1`, but the
live file still holds `"abc"` — not the reconstruction of version 0
(`"a"`), which the claim requires. -/
theorem c3_delete_version_counterexample :
    (fileDeleteVersion (commitSeq idPrims [] (freshTF []) csABC).2.1
      (commitSeq idPrims [] (freshTF []) csABC).2.2 1).1 = none ∧
    TF.versionCount (fileDeleteVersion
      (commitSeq idPrims [] (freshTF []) csABC).2.1
      (commitSeq idPrims [] (freshTF []) csABC).2.2 1).2.2 = 1 ∧
    (fileDeleteVersion (commitSeq idPrims [] (freshTF []) csABC).2.1
      (commitSeq idPrims [] (freshTF []) csABC).2.2 1).2.2.content =
      [97, 98, 99] ∧
    fileApply idPrims (fileDeleteVersion
      (commitSeq idPrims [] (freshTF []) csABC).2.1
      (commitSeq idPrims [] (freshTF []) csABC).2.2 1).2.1
      (fileDeleteVersion (commitSeq idPrims [] (freshTF []) csABC).2.1
        (commitSeq idPrims [] (freshTF []) csABC).2.2 1).2.2 0 =
      .ok [97] ∧
    ([97, 98, 99] : Bytes) ≠ [97] := by
  decide

/-- C3 (amended): for every TrackedFile with `n ≥ 1` versions and
`index ≤ n`, `delete_version(index)` succeeds and truncates the chain so
that exactly versions `[0, index)` remain, but leaves the live file's
content untouched (it is not rewound to version `index - 1`); in the
concrete three-commit scenario, `delete_version(1)` leaves
`version_count() == 1`, the live file still equal to the last committed
content, and `load_version(1)` then fails with `IndexOutOfRange`. -/
theorem c3_delete_version_amended (s : Store) (tf : TF)
    (i : Nat) (hwf : ChainWF s tf.chain) (hnd : KeysNodup s)
    (h1 : 1 ≤ tf.chain.length) (hi : i ≤ tf.chain.length) :
    (fileDeleteVersion s tf i).1 = none ∧
    (fileDeleteVersion s tf i).2.2 = { tf with chain := tf.chain.take i } ∧
    (TF.versionCount (fileDeleteVersion
        (commitSeq idPrims [] (freshTF []) csABC).2.1
        (commitSeq idPrims [] (freshTF []) csABC).2.2 1).2.2 = 1 ∧
      (fileDeleteVersion (commitSeq idPrims [] (freshTF []) csABC).2.1
        (commitSeq idPrims [] (freshTF []) csABC).2.2 1).2.2.content =
        [97, 98, 99] ∧
      (fileLoadVersion idPrims (fileDeleteVersion
          (commitSeq idPrims [] (freshTF []) csABC).2.1
          (commitSeq idPrims [] (freshTF []) csABC).2.2 1).2.1
        (fileDeleteVersion (commitSeq idPrims [] (freshTF []) csABC).2.1
          (commitSeq idPrims [] (freshTF []) csABC).2.2 1).2.2 1).1 =
        some (.indexOutOfRange 1)) := by
  obtain ⟨m, hlen⟩ : ∃ m, tf.chain.length = m + 1 := ⟨tf.chain.length - 1, by omega⟩
  have hli : tf.latestVersionIndex = some m := latestVersionIndex_some hlen
  have hred : fileDeleteVersion s tf i =
      ((popN (m + 1 - i) s tf.chain).1, (popN (m + 1 - i) s tf.chain).2.1,
        { tf with chain := (popN (m + 1 - i) s tf.chain).2.2 }) := by
    unfold fileDeleteVersion
    rw [hli]
  obtain ⟨s2, heq, _, _⟩ := popN_spec (m + 1 - i) hwf hnd (by omega)
  refine ⟨?_, ?_, by decide, by decide, by decide⟩
  · rw [hred, heq]
  · rw [hred, heq]
    have hix : tf.chain.length - (m + 1 - i) = i := by omega
    rw [hix]

/-- Witness for C3 (amended) at a concrete one-version tracked file,
deleting at index 1 (which pops nothing and keeps the whole chain). -/
theorem c3_delete_version_amended_witness :
    ChainWF [(5, [40])] [5] ∧ KeysNodup [(5, [40])] ∧
    (fileDeleteVersion [(5, [40])] { chain := [5], content := [7] } 1).1 =
      none ∧
    (fileDeleteVersion [(5, [40])] { chain := [5], content := [7] } 1).2.2 =
      { chain := ([5] : List Nat).take 1, content := ([7] : Bytes) } :=
  ⟨chainWF_of_forall_mem (by decide) (by decide), by decide,
    (c3_delete_version_amended [(5, [40])]
      { chain := [5], content := [7] } 1
      (chainWF_of_forall_mem (by decide) (by decide)) (by decide)
      (by decide) (by decide)).1,
    (c3_delete_version_amended [(5, [40])]
      { chain := [5], content := [7] } 1
      (chainWF_of_forall_mem (by decide) (by decide)) (by decide)
      (by decide) (by decide)).2.1⟩

/-- C9 counterexample: an original TrackedFile committed twice
(`"a"`, `"ab"`) reconstructs version 0 before forking; `fork()` succeeds
and the fork has exactly one version, but — because the fork's `clear()`
deletes the shared blob files the original still references — the
original's reconstruction of version 0 afterwards fails with an I/O
error, so the original's chain reconstructions are not preserved. -/
theorem c9_fork_counterexample :
    fileApply idPrims (commitSeq idPrims [] (freshTF []) [[97], [97, 98]]).2.1
      (commitSeq idPrims [] (freshTF []) [[97], [97, 98]]).2.2 0 =
      .ok [97] ∧
    (forkOf idPrims (commitSeq idPrims [] (freshTF []) [[97], [97, 98]]).2.1
      (commitSeq idPrims [] (freshTF []) [[97], [97, 98]]).2.2.content
      (commitSeq idPrims [] (freshTF []) [[97], [97, 98]]).2.2.chain).1 =
      none ∧
    (forkOf idPrims (commitSeq idPrims [] (freshTF []) [[97], [97, 98]]).2.1
      (commitSeq idPrims [] (freshTF []) [[97], [97, 98]]).2.2.content
      (commitSeq idPrims [] (freshTF []) [[97], [97, 98]]).2.2.chain).2.2.length = 1 ∧
    fileApply idPrims
      (forkOf idPrims (commitSeq idPrims [] (freshTF []) [[97], [97, 98]]).2.1
        (commitSeq idPrims [] (freshTF []) [[97], [97, 98]]).2.2.content
        (commitSeq idPrims [] (freshTF []) [[97], [97, 98]]).2.2.chain).2.1
      (commitSeq idPrims [] (freshTF []) [[97], [97, 98]]).2.2 0 =
      .error .ioError := by
  decide

/-- C9 (amended): for a TrackedFile with at least one version,
`fork()` (copy, clear the copy, commit the copy) succeeds, the fork's
chain holds exactly one entry (`version_count() == 1`), and the
original's patch-reference list is untouched; however the shared patch
directory afterwards holds exactly the fork's single new blob — every
blob the original references (other than a hash-collision with the new
one) has been deleted, so the original's reconstructions are broken
rather than preserved. -/
theorem c9_fork_amended (P : Primitives) (s : Store) (content : Bytes)
    (aChain : List Nat) (hwf : ChainWF s aChain) (hnd : KeysNodup s)
    (hne : 1 ≤ aChain.length) :
    (forkOf P s content aChain).1 = none ∧
    (forkOf P s content aChain).2.2 = [P.hashFn (Patch.new P [] content)] ∧
    storeKeys (forkOf P s content aChain).2.1 =
      [P.hashFn (Patch.new P [] content)] ∧
    (∀ h ∈ aChain, h ≠ P.hashFn (Patch.new P [] content) →
      lookupBlob (forkOf P s content aChain).2.1 h = none) := by
  obtain ⟨m, hlen⟩ : ∃ m, aChain.length = m + 1 := ⟨aChain.length - 1, by omega⟩
  have hli : ({ chain := aChain, content := content } : TF).latestVersionIndex =
      some m := latestVersionIndex_some hlen
  obtain ⟨s2, heq, hwf2, hnd2⟩ := popN_spec (m + 1 - 0) hwf hnd (by omega)
  have htake : aChain.take (aChain.length - (m + 1 - 0)) = [] := by
    rw [hlen]
    simp
  rw [htake] at heq hwf2
  have hs2 : s2 = [] := by
    cases s2 with
    | nil => rfl
    | cons kd rest =>
      exfalso
      have hx : (lookupBlob (kd :: rest) kd.1).isSome := by
        rcases kd with ⟨k, d⟩
        simp [lookupBlob]
      have hmem := (hwf2 kd.1).mp hx
      cases hmem
  subst hs2
  have hdel : fileDeleteVersion s { chain := aChain, content := content } 0 =
      (none, [], { chain := [], content := content }) := by
    unfold fileDeleteVersion
    rw [hli]
    show ((popN (m + 1 - 0) s aChain).1, (popN (m + 1 - 0) s aChain).2.1,
      ({ chain := (popN (m + 1 - 0) s aChain).2.2, content := content } : TF)) =
      (none, [], ({ chain := [], content := content } : TF))
    rw [heq]
  have hcommit : fileCommit P [] { chain := ([] : List Nat), content := content } =
      (none, [(P.hashFn (Patch.new P [] content), Patch.new P [] content)],
        { chain := [P.hashFn (Patch.new P [] content)], content := content }) := rfl
  have hfork : forkOf P s content aChain =
      (none, [(P.hashFn (Patch.new P [] content), Patch.new P [] content)],
        [P.hashFn (Patch.new P [] content)]) := by
    have hstep2 : forkOf P s content aChain =
        ((fileCommit P [] { chain := ([] : List Nat), content := content }).1,
          (fileCommit P [] { chain := ([] : List Nat), content := content }).2.1,
          (fileCommit P [] { chain := ([] : List Nat), content := content }).2.2.chain) := by
      show (match fileDeleteVersion s { chain := aChain, content := content } 0 with
        | (some e, s2, tf2) => (some e, s2, tf2.chain)
        | (none, s2, tf2) =>
          match fileCommit P s2 tf2 with
          | (e, s3, tf3) => (e, s3, tf3.chain)) = _
      rw [hdel]
    rw [hstep2, hcommit]
  rw [hfork]
  refine ⟨rfl, rfl, rfl, ?_⟩
  intro h _ hneq
  show lookupBlob [(P.hashFn (Patch.new P [] content), Patch.new P [] content)] h = none
  simp [lookupBlob, Ne.symm hneq]

/-- Witness for C9 (amended) at a concrete one-version tracked file. -/
theorem c9_fork_amended_witness :
    ChainWF [(5, [40])] [5] ∧ KeysNodup [(5, [40])] ∧
    (forkOf idPrims [(5, [40])] [9] [5]).1 = none ∧
    (forkOf idPrims [(5, [40])] [9] [5]).2.2 =
      [idPrims.hashFn (Patch.new idPrims [] [9])] :=
  ⟨chainWF_of_forall_mem (by decide) (by decide), by decide,
    (c9_fork_amended idPrims [(5, [40])] [9] [5]
      (chainWF_of_forall_mem (by decide) (by decide)) (by decide)
      (by decide)).1,
    (c9_fork_amended idPrims [(5, [40])] [9] [5]
      (chainWF_of_forall_mem (by decide) (by decide)) (by decide)
      (by decide)).2.1⟩

/-- C5 counterexample: (a) a childless folder's `version_count()` is 1
after one successful commit, not 0 as the claim's "(or 0 if there are no
children)" requires; (b) on a folder holding a one-version file and a
one-version sub-folder, `delete_version(3)` succeeds yet leaves the
children with unequal version counts (1 and 3). -/
theorem c5_folder_sync_counterexample :
    (itemCommit idPrims (mkFolder [])).1 = none ∧
    Item.versionCount (itemCommit idPrims (mkFolder [])).2 = 1 ∧
    ((1 : Nat) ≠ 0) ∧
    (itemDeleteVersion 3 mixedFolder).1 = none ∧
    Item.childCounts (itemDeleteVersion 3 mixedFolder).2 = [1, 3] ∧
    ((1 : Nat) ≠ 3) := by
  decide

/-- C5 (amended): for a folder whose children all have version count `k`,
a successful `commit()` leaves every child at `k + 1` and bumps the
folder's own counter; a successful `load_version` changes no counts; a
successful `delete_version(i)` with `i ≤ k` leaves every child at `i`
and sets the folder's counter to `i` (for `i > k` mixed children can
desynchronize, and a childless folder's counter still advances); in
particular a folder of files A and B after 3 successful commits has
`version_count() == 3` with each child at 3. -/
theorem c5_folder_sync_amended (P : Primitives) (cs : List Item) (n k : Nat)
    (hk : ∀ x ∈ cs, Item.versionCount x = k) :
    ((itemCommit P (Item.folder cs n)).1 = none →
      Item.childCounts (itemCommit P (Item.folder cs n)).2 =
        List.replicate cs.length (k + 1) ∧
      Item.versionCount (itemCommit P (Item.folder cs n)).2 = n + 1) ∧
    (∀ i, (itemLoadVersion P i (Item.folder cs n)).1 = none →
      Item.childCounts (itemLoadVersion P i (Item.folder cs n)).2 =
        List.replicate cs.length k ∧
      Item.versionCount (itemLoadVersion P i (Item.folder cs n)).2 = n) ∧
    (∀ i, i ≤ k → (itemDeleteVersion i (Item.folder cs n)).1 = none →
      Item.childCounts (itemDeleteVersion i (Item.folder cs n)).2 =
        List.replicate cs.length i ∧
      Item.versionCount (itemDeleteVersion i (Item.folder cs n)).2 = i) ∧
    ((itemCommit idPrims twoFilesFolder).1 = none ∧
      (itemCommit idPrims (itemCommit idPrims twoFilesFolder).2).1 = none ∧
      (itemCommit idPrims
        (itemCommit idPrims (itemCommit idPrims twoFilesFolder).2).2).1 = none ∧
      Item.versionCount (commit3 idPrims twoFilesFolder) = 3 ∧
      Item.childCounts (commit3 idPrims twoFilesFolder) = [3, 3]) := by
  refine ⟨?_, ?_, ?_, by decide, by decide, by decide, by decide, by decide⟩
  · intro h
    rcases he : itemsCommit P cs with ⟨_ | e, cs2⟩
    · have hred : itemCommit P (.folder cs n) = (none, .folder cs2 (n + 1)) := by
        show (match itemsCommit P cs with
          | (none, cs3) => (none, Item.folder cs3 (n + 1))
          | (some e, cs3) => (some e, Item.folder cs3 n)) = _
        rw [he]
      rw [hred]
      obtain ⟨hlen2, hmem2⟩ := itemsCommit_none_mem P cs cs2 he
      refine ⟨?_, rfl⟩
      show cs2.map Item.versionCount = List.replicate cs.length (k + 1)
      apply List.eq_replicate.mpr
      refine ⟨by simp [hlen2], ?_⟩
      intro b hb
      obtain ⟨y, hy, hyb⟩ := List.mem_map.mp hb
      obtain ⟨x, hx, hxc⟩ := hmem2 y hy
      have hcnt := itemCommit_count P x (by rw [hxc])
      rw [hxc] at hcnt
      rw [← hyb]
      show y.versionCount = k + 1
      rw [show (none, y).2 = y from rfl] at hcnt
      rw [hcnt, hk x hx]
    · have hred : itemCommit P (.folder cs n) = (some e, .folder cs2 n) := by
        show (match itemsCommit P cs with
          | (none, cs3) => (none, Item.folder cs3 (n + 1))
          | (some e, cs3) => (some e, Item.folder cs3 n)) = _
        rw [he]
      rw [hred] at h
      cases h
  · intro i h
    have h0 : (itemsLoadVersion P i cs).1 = none := h
    have heq2 : itemsLoadVersion P i cs = (none, (itemsLoadVersion P i cs).2) := by
      rw [← h0]
    obtain ⟨hlen2, hmem2⟩ := itemsLoadVersion_none_mem P i cs _ heq2
    constructor
    · show (itemsLoadVersion P i cs).2.map Item.versionCount =
        List.replicate cs.length k
      apply List.eq_replicate.mpr
      refine ⟨by simp [hlen2], ?_⟩
      intro b hb
      obtain ⟨y, hy, hyb⟩ := List.mem_map.mp hb
      obtain ⟨x, hx, hxc⟩ := hmem2 y hy
      have hcnt := itemLoadVersion_count P i x
      rw [hxc] at hcnt
      rw [← hyb]
      show y.versionCount = k
      rw [show (none, y).2 = y from rfl] at hcnt
      rw [hcnt, hk x hx]
    · rfl
  · intro i hik h
    rcases he : itemsDeleteVersion i cs with ⟨_ | e, cs2⟩
    · have hred : itemDeleteVersion i (.folder cs n) = (none, .folder cs2 i) := by
        show (match itemsDeleteVersion i cs with
          | (none, cs3) => (none, Item.folder cs3 i)
          | (some e, cs3) => (some e, Item.folder cs3 n)) = _
        rw [he]
      rw [hred]
      obtain ⟨hlen2, hmem2⟩ := itemsDeleteVersion_none_mem i cs cs2 he
      refine ⟨?_, rfl⟩
      show cs2.map Item.versionCount = List.replicate cs.length i
      apply List.eq_replicate.mpr
      refine ⟨by simp [hlen2], ?_⟩
      intro b hb
      obtain ⟨y, hy, hyb⟩ := List.mem_map.mp hb
      obtain ⟨x, hx, hxc⟩ := hmem2 y hy
      have hcnt := itemDeleteVersion_count i x
        (by rw [hk x hx]; exact hik) (by rw [hxc])
      rw [hxc] at hcnt
      rw [← hyb]
      show y.versionCount = i
      rw [show (none, y).2 = y from rfl] at hcnt
      rw [hcnt]
    · have hred : itemDeleteVersion i (.folder cs n) = (some e, .folder cs2 n) := by
        show (match itemsDeleteVersion i cs with
          | (none, cs3) => (none, Item.folder cs3 i)
          | (some e, cs3) => (some e, Item.folder cs3 n)) = _
        rw [he]
      rw [hred] at h
      cases h

/-- Witness for C5 (amended) at the two-file folder with all children at
count 0, including the commit implication discharged concretely. -/
theorem c5_folder_sync_amended_witness :
    (∀ x ∈ [Item.file [] (freshTF []), Item.file [] (freshTF [])],
      Item.versionCount x = 0) ∧
    (itemCommit idPrims
      (Item.folder [Item.file [] (freshTF []), Item.file [] (freshTF [])] 0)).1 =
      none ∧
    (Item.childCounts (itemCommit idPrims
        (Item.folder [Item.file [] (freshTF []), Item.file [] (freshTF [])] 0)).2 =
      List.replicate
        ([Item.file [] (freshTF []), Item.file [] (freshTF [])] : List Item).length
        (0 + 1) ∧
      Item.versionCount (itemCommit idPrims
        (Item.folder [Item.file [] (freshTF []), Item.file [] (freshTF [])] 0)).2 =
        0 + 1) :=
  ⟨by decide, by decide,
    (c5_folder_sync_amended idPrims
      [Item.file [] (freshTF []), Item.file [] (freshTF [])] 0 0
      (by decide)).1 (by decide)⟩

/-- C6 counterexample: a childless folder committed once (successfully)
has `version_count() == 1`, not 0; and a folder whose stored counter is 0
over a first child with one version returns 0, not the first child's
count — `version_count()` reads the folder's own field, not the first
child. -/
theorem c6_version_count_counterexample :
    (itemCommit idPrims (mkFolder [])).1 = none ∧
    Item.versionCount (itemCommit idPrims (mkFolder [])).2 = 1 ∧
    ((1 : Nat) ≠ 0) ∧
    Item.versionCount (Item.folder [oneVersionFile] 0) = 0 ∧
    Item.versionCount oneVersionFile = 1 ∧
    ((0 : Nat) ≠ 1) := by
  decide

/-- C6 (amended): a TrackedFolder's `version_count()` returns the
folder's own stored counter — 0 at construction, incremented by each
successful `commit()`, set to `index` by each successful
`delete_version(index)` — independent of its children (it agrees with
the first child only while histories stay synchronized). -/
theorem c6_version_count_amended (P : Primitives) (cs cs2 : List Item)
    (n : Nat) :
    Item.versionCount (Item.folder cs n) = n ∧
    Item.versionCount (Item.folder cs n) = Item.versionCount (Item.folder cs2 n) ∧
    Item.versionCount (mkFolder cs) = 0 ∧
    ((itemCommit P (Item.folder cs n)).1 = none →
      Item.versionCount (itemCommit P (Item.folder cs n)).2 = n + 1) ∧
    (∀ i, (itemDeleteVersion i (Item.folder cs n)).1 = none →
      Item.versionCount (itemDeleteVersion i (Item.folder cs n)).2 = i) := by
  refine ⟨rfl, rfl, rfl, ?_, ?_⟩
  · intro h
    exact itemCommit_count P _ h
  · intro i h
    exact itemDeleteVersion_folder_count i cs n h

/-- Witness for C6 (amended) at a concrete single-file folder, with the
commit implication discharged concretely. -/
theorem c6_version_count_amended_witness :
    (itemCommit idPrims (Item.folder [Item.file [] (freshTF [])] 0)).1 = none ∧
    Item.versionCount
      (itemCommit idPrims (Item.folder [Item.file [] (freshTF [])] 0)).2 =
      0 + 1 :=
  ⟨by decide,
    (c6_version_count_amended idPrims [Item.file [] (freshTF [])] [] 0).2.2.2.1
      (by decide)⟩

/-- C7: in a TrackedFolder's child loop (for commit, load_version and
delete_version alike), when every child before `y` succeeds and `y`
fails with error `e`, the loop returns `e`; the children before `y` keep
their new, mutated states, `y` keeps its own (possibly mutated) state,
and the children after `y` are left exactly as they were — no rollback. -/
theorem c7_first_error_aborts (P : Primitives) (xs : List Item) (y : Item)
    (zs : List Item) (e : VErr) :
    ((∀ x ∈ xs, (itemCommit P x).1 = none) → (itemCommit P y).1 = some e →
      itemsCommit P (xs ++ y :: zs) =
        (some e, xs.map (fun x => (itemCommit P x).2) ++
          (itemCommit P y).2 :: zs)) ∧
    (∀ i, (∀ x ∈ xs, (itemLoadVersion P i x).1 = none) →
      (itemLoadVersion P i y).1 = some e →
      itemsLoadVersion P i (xs ++ y :: zs) =
        (some e, xs.map (fun x => (itemLoadVersion P i x).2) ++
          (itemLoadVersion P i y).2 :: zs)) ∧
    (∀ i, (∀ x ∈ xs, (itemDeleteVersion i x).1 = none) →
      (itemDeleteVersion i y).1 = some e →
      itemsDeleteVersion i (xs ++ y :: zs) =
        (some e, xs.map (fun x => (itemDeleteVersion i x).2) ++
          (itemDeleteVersion i y).2 :: zs)) :=
  ⟨fun hxs hy => itemsCommit_append P y zs e xs hxs hy,
    fun i hxs hy => itemsLoadVersion_append P i y zs e xs hxs hy,
    fun i hxs hy => itemsDeleteVersion_append i y zs e xs hxs hy⟩

/-- Witness for C7: one healthy file before, a file whose blob is
missing (commit fails with an I/O error) in the middle, one untouched
file after. -/
theorem c7_first_error_aborts_witness :
    (∀ x ∈ [Item.file [] (freshTF [])], (itemCommit idPrims x).1 = none) ∧
    (itemCommit idPrims brokenFile).1 = some .ioError ∧
    itemsCommit idPrims
      ([Item.file [] (freshTF [])] ++ brokenFile :: [Item.file [] (freshTF [])]) =
      (some .ioError,
        ([Item.file [] (freshTF [])] : List Item).map
          (fun x => (itemCommit idPrims x).2) ++
          (itemCommit idPrims brokenFile).2 :: [Item.file [] (freshTF [])]) :=
  ⟨by decide, by decide,
    (c7_first_error_aborts idPrims [Item.file [] (freshTF [])] brokenFile
      [Item.file [] (freshTF [])] .ioError).1 (by decide) (by decide)⟩

end EasyVersion
